import Mathlib

/-!
Verification development for the `ddh` duplicate-file finder.

The data model (`Fileinfo`, its equality, ordering and hash) is embedded
from `src/lib.rs`; the resolver pipeline `differentiate_and_consolidate`,
the partition step and the directory walker are embedded from
`src/main.rs`.  File contents are modelled as lists of bytes (`List Nat`),
paths as natural numbers, and the filesystem as a total map from paths
to contents.  The two hashing modes are abstract functions `ph` (applied
to the first 4096 bytes) and `fh` (applied to the whole content), kept as
parameters so that statements about "no full hash is computed" can be
expressed as independence from `fh`.
-/

namespace Ddh

/-- File record, embedded from `src/lib.rs` (`pub struct Fileinfo`):
`file_hash: u64`, `file_len: u64`, `file_paths: Vec<PathBuf>`,
`second_hash: bool`.  Hash values and lengths are `u64` in Rust; only
equality and ordering of these values matter to the program, so they are
modelled as `Nat`.  Paths are abstract (`Nat`). -/
structure Fileinfo where
  file_hash : Nat
  file_len : Nat
  file_paths : List Nat
  second_hash : Bool
deriving DecidableEq, Repr

/-- `Fileinfo::new` from `src/lib.rs`: a record starts with exactly one
path and `second_hash: false`. -/
def Fileinfo.new (hash : Nat) (length : Nat) (path : Nat) : Fileinfo :=
  { file_hash := hash, file_len := length, file_paths := [path], second_hash := false }

/-- `impl PartialEq for Fileinfo` from `src/lib.rs`:
`(self.file_hash==other.file_hash)&&(self.file_len==other.file_len)`. -/
def Fileinfo.eq (a b : Fileinfo) : Bool :=
  (a.file_hash == b.file_hash) && (a.file_len == b.file_len)

/-- `impl Hash for Fileinfo` from `src/lib.rs`: the hasher is fed exactly
`self.file_hash` and nothing else.  We model the data stream fed to the
hasher. -/
def Fileinfo.hashInput (a : Fileinfo) : List Nat :=
  [a.file_hash]

/-- Modelled from the spec (§4.1 Content Fingerprint): `src/lib.rs` in this
snapshot does not contain `generate_hash(HashMode::Partial)`; per the spec
the partial hash "reads at most a fixed prefix (4096 bytes) of the file and
hashes it".  `fs` is the filesystem, `ph` the abstract hash function. -/
def genHashPart (fs : Nat → List Nat) (ph : List Nat → Nat) (p : Nat) : Nat :=
  ph ((fs p).take 4096)

/-- Modelled from the spec (§4.1 Content Fingerprint): full-mode hashing
"reads the entire file and hashes it". -/
def genHashFull (fs : Nat → List Nat) (fh : List Nat → Nat) (p : Nat) : Nat :=
  fh (fs p)

/-- Hash stage one of `differentiate_and_consolidate` (`src/main.rs`
lines 120-123): every record's partial hash is computed and stored in
`file_hash` (`set_partial_hash` is modelled from the spec §3:
"`content_hash` ... becomes the partial hash").  The record hashes the file
at its first path (records enter the resolver with a single path). -/
def hashStageOne (fs : Nat → List Nat) (ph : List Nat → Nat)
    (files : List Fileinfo) : List Fileinfo :=
  files.map (fun f => { f with file_hash := genHashPart fs ph (f.file_paths.headD 0) })

/-- The sort of `src/main.rs` line 124:
`files.par_sort_unstable_by(|a, b| b.get_partial_hash().cmp(&a.get_partial_hash()))`,
i.e. descending by `file_hash`.  The Rust sort is unstable, so any order of
tied elements is a compliant behaviour; we model it by insertion sort,
which satisfies the same comparator contract and is kernel-computable. -/
def sortStage (files : List Fileinfo) : List Fileinfo :=
  files.insertionSort (fun a b => b.file_hash ≤ a.file_hash)

/-- Marking a record as needing full verification.  Modelled from the spec
(§4.3d / §3): `a.set_full_hash(Some(1))` in `src/main.rs` records
"`confirmed_full` pending"; in the `src/lib.rs` data model this is the
`second_hash` flag. -/
def mark (f : Fileinfo) : Fileinfo :=
  { f with second_hash := true }

/-- The marking pass of `src/main.rs` lines 126-130: a `dedup_by` whose
closure always returns `false` (nothing is removed), but which marks BOTH
members of every adjacent pair of records that compare equal.  `dedup_by`
compares each element against the previously retained one, i.e. against
its immediate predecessor here.  `prev` is the last retained element. -/
def markGo (prev : Fileinfo) : List Fileinfo → List Fileinfo
  | [] => [prev]
  | x :: xs =>
    if Fileinfo.eq x prev then mark prev :: markGo (mark x) xs
    else prev :: markGo x xs

/-- Marking pass over the whole (sorted) vector. -/
def markStage : List Fileinfo → List Fileinfo
  | [] => []
  | x :: xs => markGo x xs

/-- The full-hash pass of `src/main.rs` lines 131-134: every marked record
gets its `file_hash` overwritten by the full-content hash (spec §4.3d:
"compute `full_hash` for every marked record ..., overwriting
`content_hash`"). -/
def fullHashStage (fs : Nat → List Nat) (fh : List Nat → Nat)
    (files : List Fileinfo) : List Fileinfo :=
  files.map (fun f =>
    if f.second_hash then { f with file_hash := genHashFull fs fh (f.file_paths.headD 0) }
    else f)

/-- One step of the final merging `dedup_by` of `src/main.rs` lines
139-142: `acc` is the currently retained record; a following record equal
to it (by `Fileinfo.eq`) is absorbed — its paths are appended to `acc`'s
(`b.file_paths.extend(a.file_paths.drain(0..))`) and it is removed. -/
def dedupMergeGo (acc : Fileinfo) : List Fileinfo → List Fileinfo
  | [] => [acc]
  | x :: xs =>
    if Fileinfo.eq x acc then
      dedupMergeGo { acc with file_paths := acc.file_paths ++ x.file_paths } xs
    else acc :: dedupMergeGo x xs

/-- The final merging `dedup_by` over the whole vector. -/
def dedupMerge : List Fileinfo → List Fileinfo
  | [] => []
  | x :: xs => dedupMergeGo x xs

/-- The hashing stages of `differentiate_and_consolidate` for a bucket
with at least two records (`src/main.rs` lines 119-135): partial hash,
descending sort, and — only when `file_length > 4096` — marking followed
by full hashing of the marked records. -/
def hashStages (fs : Nat → List Nat) (ph fh : List Nat → Nat)
    (file_length : Nat) (files : List Fileinfo) : List Fileinfo :=
  if 4096 < file_length then
    fullHashStage fs fh (markStage (sortStage (hashStageOne fs ph files)))
  else
    sortStage (hashStageOne fs ph files)

/-- `differentiate_and_consolidate` from `src/main.rs` lines 112-144.
`none` is the `panic!` arm of the `match` (the "vector of negative length"
catch-all).  The early returns (zero length / empty / singleton bucket)
skip the final merging pass exactly as in the source. -/
def differentiate_and_consolidate (fs : Nat → List Nat) (ph fh : List Nat → Nat)
    (file_length : Nat) (files : List Fileinfo) : Option (List Fileinfo) :=
  if file_length = 0 ∨ files.length = 0 then some files
  else if files.length = 1 then some files
  else if 1 < files.length then
    some (dedupMerge (hashStages fs ph fh file_length files))
  else none

/-- The partition of `src/main.rs` line 80:
`complete_files.par_iter().partition(|&x| x.file_paths.len()>1)`;
first component `shared_files`, second `unique_files`. -/
def partitionFiles (complete : List Fileinfo) : List Fileinfo × List Fileinfo :=
  complete.partition (fun x => 1 < x.file_paths.length)

/-- Modelled from the spec (§4.2): the filesystem tree seen by the walker.
A node is a regular file (with byte length), a directory (whose listing
either succeeds, yielding the entries the `filter(|x| x.is_ok())` kept, or
fails — `readable = false` — which is the `Err` branch of `read_dir`), or
something else (socket, device, ...). -/
inductive FsNode where
  | file (path : Nat) (len : Nat)
  | dir (path : Nat) (readable : Bool) (entries : List FsNode)
  | other (path : Nat)

mutual
/-- `traverse_and_spawn` from `src/main.rs` lines 84-110, on an existing
node.  Result: the records sent over the channel, and the list of paths for
which a `Skipping {path}. {error kind}.` diagnostic was printed.  A regular
file is sent as `Fileinfo::new` with no hash yet (modelled from the spec §3:
`content_hash` "starts as 0/unset"); an unreadable directory prints the
diagnostic and recurses over no entries; an `other` node falls into the
final empty `else` branch. -/
def travNode : FsNode → List Fileinfo × List Nat
  | FsNode.file p len => ([Fileinfo.new 0 len p], [])
  | FsNode.dir p rd entries =>
    if rd then travList entries else ([], [p])
  | FsNode.other _ => ([], [])

/-- Recursion of `traverse_and_spawn` over the collected directory
entries. -/
def travList : List FsNode → List Fileinfo × List Nat
  | [] => ([], [])
  | t :: ts => ((travNode t).1 ++ (travList ts).1, (travNode t).2 ++ (travList ts).2)
end

/-- `traverse_and_spawn` on a root path: `if !current_path.exists(){ return }`
(`src/main.rs` lines 85-87) — a missing root (`none`) returns silently. -/
def traverse_and_spawn : Option FsNode → List Fileinfo × List Nat
  | none => ([], [])
  | some t => travNode t

/-- The per-root fan-out of `main` (`src/main.rs` lines 60-64): every root
is traversed and all emissions are collected. -/
def walkRoots : List (Option FsNode) → List Fileinfo × List Nat
  | [] => ([], [])
  | r :: rs =>
    ((traverse_and_spawn r).1 ++ (walkRoots rs).1,
     (traverse_and_spawn r).2 ++ (walkRoots rs).2)

/-- Default record used for out-of-range `getD` reads in statements. -/
def dflt : Fileinfo :=
  { file_hash := 0, file_len := 0, file_paths := [], second_hash := false }

/-- Position `i` of the (sorted) list `l` has an adjacent record comparing
equal (equal partial hash and equal length, `Fileinfo.eq`): either its
successor or its predecessor. -/
def adjColl (l : List Fileinfo) (i : Nat) : Bool :=
  decide (i < l.length) &&
    ((decide (i + 1 < l.length) && Fileinfo.eq (l.getD (i + 1) dflt) (l.getD i dflt)) ||
     (decide (0 < i) && Fileinfo.eq (l.getD i dflt) (l.getD (i - 1) dflt)))

/-- A record viewed as its observable content: hash, length and the set of
paths holding that content. -/
def recordView (r : Fileinfo) : Nat × Nat × Finset Nat :=
  (r.file_hash, r.file_len, r.file_paths.toFinset)

/-- A resolver output viewed as a set of (hash, length, path-set)
triples. -/
def outputView (l : List Fileinfo) : Finset (Nat × Nat × Finset Nat) :=
  (l.map recordView).toFinset

/-! ### Basic lemmas about the record operations -/

theorem Fileinfo.eq_iff (a b : Fileinfo) :
    Fileinfo.eq a b = true ↔ a.file_hash = b.file_hash ∧ a.file_len = b.file_len := by
  simp [Fileinfo.eq]

@[simp] theorem mark_file_hash (f : Fileinfo) : (mark f).file_hash = f.file_hash := rfl

@[simp] theorem mark_file_len (f : Fileinfo) : (mark f).file_len = f.file_len := rfl

@[simp] theorem mark_file_paths (f : Fileinfo) : (mark f).file_paths = f.file_paths := rfl

@[simp] theorem mark_mark (f : Fileinfo) : mark (mark f) = mark f := rfl

@[simp] theorem eq_mark_left (a b : Fileinfo) : Fileinfo.eq (mark a) b = Fileinfo.eq a b := rfl

@[simp] theorem eq_mark_right (a b : Fileinfo) : Fileinfo.eq a (mark b) = Fileinfo.eq a b := rfl

/-! ### The marking pass: pointwise characterization -/

theorem markGo_length (xs : List Fileinfo) : ∀ prev, (markGo prev xs).length = xs.length + 1 := by
  induction xs with
  | nil => intro prev; simp [markGo]
  | cons x xs ih =>
    intro prev
    by_cases hx : Fileinfo.eq x prev = true
    · simp [markGo, hx, ih]
    · simp [markGo, hx, ih]

theorem markStage_length (l : List Fileinfo) : (markStage l).length = l.length := by
  cases l with
  | nil => rfl
  | cons x xs => simp [markStage, markGo_length]

/-- `adjColl` at an index ≥ 2 of a cons only looks at the tail. -/
theorem adjColl_cons_succ (a : Fileinfo) (l : List Fileinfo) (m : Nat) :
    adjColl (a :: l) (m + 1 + 1) = adjColl l (m + 1) := by
  simp only [adjColl, List.length_cons, List.getD_cons_succ, Nat.add_sub_cancel]
  rw [decide_eq_decide.mpr (show m + 1 + 1 < l.length + 1 ↔ m + 1 < l.length by omega),
    decide_eq_decide.mpr (show m + 1 + 1 + 1 < l.length + 1 ↔ m + 1 + 1 < l.length by omega),
    decide_eq_decide.mpr (show (0 : Nat) < m + 1 + 1 ↔ (0 : Nat) < m + 1 by omega)]

/-- Marking the head of the list does not change adjacency collisions. -/
theorem adjColl_mark_head (a : Fileinfo) (l : List Fileinfo) (i : Nat) :
    adjColl (mark a :: l) i = adjColl (a :: l) i := by
  cases i with
  | zero => simp [adjColl]
  | succ j =>
    cases j with
    | zero => simp [adjColl]
    | succ m => rw [adjColl_cons_succ, adjColl_cons_succ]

theorem markGo_getD (xs : List Fileinfo) : ∀ (prev : Fileinfo) (i : Nat),
    (markGo prev xs).getD i dflt =
      if adjColl (prev :: xs) i then mark ((prev :: xs).getD i dflt)
      else (prev :: xs).getD i dflt := by
  induction xs with
  | nil =>
    intro prev i
    cases i with
    | zero => simp [markGo, adjColl]
    | succ j => simp [markGo, adjColl]
  | cons x xs ih =>
    intro prev i
    by_cases hx : Fileinfo.eq x prev = true
    · cases i with
      | zero =>
        have hc : adjColl (prev :: x :: xs) 0 = true := by
          simp [adjColl, hx]
        simp [markGo, hx, hc]
      | succ j =>
        have hlhs : (markGo prev (x :: xs)).getD (j + 1) dflt
            = (markGo (mark x) xs).getD j dflt := by
          simp [markGo, hx]
        rw [hlhs, ih (mark x) j]
        cases j with
        | zero =>
          have hc1 : adjColl (prev :: x :: xs) 1 = true := by
            simp [adjColl, hx]
          rw [if_pos hc1]
          simp only [List.getD_cons_succ, List.getD_cons_zero]
          cases hadj : adjColl (mark x :: xs) 0 <;> simp [hadj]
        | succ k =>
          rw [adjColl_mark_head, adjColl_cons_succ prev (x :: xs) k]
          simp only [List.getD_cons_succ]
    · rw [Bool.not_eq_true] at hx
      cases i with
      | zero =>
        have hc : adjColl (prev :: x :: xs) 0 = false := by
          simp [adjColl, hx]
        simp [markGo, hx, hc]
      | succ j =>
        have hlhs : (markGo prev (x :: xs)).getD (j + 1) dflt
            = (markGo x xs).getD j dflt := by
          simp [markGo, hx]
        rw [hlhs, ih x j]
        cases j with
        | zero =>
          have hc : adjColl (prev :: x :: xs) 1 = adjColl (x :: xs) 0 := by
            simp only [adjColl, List.length_cons, List.getD_cons_succ, List.getD_cons_zero]
            rw [decide_eq_decide.mpr (show 1 < xs.length + 1 + 1 ↔ 0 < xs.length + 1 by omega),
              decide_eq_decide.mpr
                (show 1 + 1 < xs.length + 1 + 1 ↔ 0 + 1 < xs.length + 1 by omega)]
            · simp [hx]
            · exact inferInstance
            · exact inferInstance
          rw [hc]
          simp only [List.getD_cons_succ]
        | succ m =>
          rw [adjColl_cons_succ prev (x :: xs) m]
          simp only [List.getD_cons_succ]

theorem markStage_getD (l : List Fileinfo) (i : Nat) :
    (markStage l).getD i dflt =
      if adjColl l i then mark (l.getD i dflt) else l.getD i dflt := by
  cases l with
  | nil => simp [markStage, adjColl]
  | cons x xs => simpa [markStage] using markGo_getD xs x i

/-! ### The final merging pass -/

theorem dedupMergeGo_flatMap (xs : List Fileinfo) : ∀ acc,
    (dedupMergeGo acc xs).flatMap (fun r => r.file_paths) =
      acc.file_paths ++ xs.flatMap (fun r => r.file_paths) := by
  induction xs with
  | nil => intro acc; simp [dedupMergeGo]
  | cons x xs ih =>
    intro acc
    by_cases hx : Fileinfo.eq x acc = true
    · simp [dedupMergeGo, hx, ih, List.append_assoc]
    · simp [dedupMergeGo, hx, ih]

/-- Every record surviving the merging pass is one of the input records
with (only) its path list extended. -/
theorem dedupMergeGo_shape (xs : List Fileinfo) : ∀ acc r, r ∈ dedupMergeGo acc xs →
    (∃ P, r = { acc with file_paths := P }) ∨
      ∃ z ∈ xs, ∃ P, r = { z with file_paths := P } := by
  induction xs with
  | nil =>
    intro acc r hr
    simp only [dedupMergeGo, List.mem_singleton] at hr
    exact Or.inl ⟨acc.file_paths, by rw [hr]⟩
  | cons x xs ih =>
    intro acc r hr
    by_cases hx : Fileinfo.eq x acc = true
    · simp only [dedupMergeGo, hx, if_pos] at hr
      rcases ih _ r hr with ⟨P, hP⟩ | ⟨z, hz, P, hP⟩
      · exact Or.inl ⟨P, hP⟩
      · exact Or.inr ⟨z, List.mem_cons_of_mem x hz, P, hP⟩
    · simp only [dedupMergeGo, hx, if_neg, Bool.not_eq_true, List.mem_cons] at hr
      rcases hr with rfl | hr
      · exact Or.inl ⟨r.file_paths, by rfl⟩
      · rcases ih x r hr with ⟨P, hP⟩ | ⟨z, hz, P, hP⟩
        · exact Or.inr ⟨x, List.mem_cons_self x xs, P, hP⟩
        · exact Or.inr ⟨z, List.mem_cons_of_mem x hz, P, hP⟩

theorem dedupMerge_shape (s : List Fileinfo) (r : Fileinfo) (hr : r ∈ dedupMerge s) :
    ∃ z ∈ s, ∃ P, r = { z with file_paths := P } := by
  cases s with
  | nil => simp [dedupMerge] at hr
  | cons x xs =>
    rcases dedupMergeGo_shape xs x r hr with ⟨P, hP⟩ | ⟨z, hz, P, hP⟩
    · exact ⟨x, List.mem_cons_self x xs, P, hP⟩
    · exact ⟨z, List.mem_cons_of_mem x hz, P, hP⟩

theorem dedupMergeGo_paths_ne (xs : List Fileinfo) : ∀ acc,
    acc.file_paths ≠ [] → (∀ x ∈ xs, x.file_paths ≠ []) →
    ∀ r ∈ dedupMergeGo acc xs, r.file_paths ≠ [] := by
  induction xs with
  | nil =>
    intro acc hacc _ r hr
    simp only [dedupMergeGo, List.mem_singleton] at hr
    rw [hr]; exact hacc
  | cons x xs ih =>
    intro acc hacc hxs r hr
    by_cases hx : Fileinfo.eq x acc = true
    · simp only [dedupMergeGo, hx, if_pos] at hr
      refine ih _ ?_ (fun y hy => hxs y (List.mem_cons_of_mem x hy)) r hr
      simp only [ne_eq, List.append_eq_nil]
      intro ⟨h1, _⟩
      exact hacc h1
    · simp only [dedupMergeGo, hx, if_neg, Bool.not_eq_true, List.mem_cons] at hr
      rcases hr with rfl | hr
      · exact hacc
      · exact ih x (hxs x (List.mem_cons_self x xs))
          (fun y hy => hxs y (List.mem_cons_of_mem x hy)) r hr

/-- Splitting the merging pass at the head's run: the head absorbs exactly
the leading run of records comparing equal to it, and the pass restarts on
the remainder. -/
theorem dedupMergeGo_split (xs : List Fileinfo) : ∀ acc,
    dedupMergeGo acc xs =
      { acc with file_paths := acc.file_paths ++
          (xs.takeWhile (fun y => Fileinfo.eq y acc)).flatMap (fun r => r.file_paths) } ::
        dedupMerge (xs.dropWhile (fun y => Fileinfo.eq y acc)) := by
  induction xs with
  | nil => intro acc; simp [dedupMergeGo, dedupMerge]
  | cons x xs ih =>
    intro acc
    by_cases hx : Fileinfo.eq x acc = true
    · rw [@List.takeWhile_cons_of_pos _ (fun y => Fileinfo.eq y acc) x xs hx,
        @List.dropWhile_cons_of_pos _ (fun y => Fileinfo.eq y acc) x xs hx]
      simp only [dedupMergeGo, hx, if_pos]
      rw [ih { acc with file_paths := acc.file_paths ++ x.file_paths }]
      have hpred : (fun y => Fileinfo.eq y { acc with file_paths := acc.file_paths ++ x.file_paths })
          = (fun y => Fileinfo.eq y acc) := rfl
      simp only [hpred, List.append_assoc]
      simp
    · rw [@List.takeWhile_cons_of_neg _ (fun y => Fileinfo.eq y acc) x xs (by simp [hx]),
        @List.dropWhile_cons_of_neg _ (fun y => Fileinfo.eq y acc) x xs (by simp [hx])]
      simp only [dedupMergeGo, hx, if_neg, Bool.not_eq_true]
      simp [dedupMerge]

/-! ### The sorting stage -/

theorem sortStage_perm (l : List Fileinfo) : (sortStage l).Perm l :=
  List.perm_insertionSort _ l

theorem sortStage_sorted (l : List Fileinfo) :
    (sortStage l).Pairwise (fun a b => b.file_hash ≤ a.file_hash) := by
  haveI : IsTotal Fileinfo (fun a b => b.file_hash ≤ a.file_hash) :=
    ⟨fun a b => Nat.le_total _ _⟩
  haveI : IsTrans Fileinfo (fun a b => b.file_hash ≤ a.file_hash) :=
    ⟨fun a b c h1 h2 => Nat.le_trans h2 h1⟩
  exact List.sorted_insertionSort _ l

/-! ### Runs in a descending-sorted uniform-length bucket -/

/-- In a descending-sorted list whose records all share one length, every
record past the head's run of equal records has a strictly smaller hash. -/
theorem sorted_dropWhile_hash_lt (xs : List Fileinfo) : ∀ (x : Fileinfo),
    (x :: xs).Pairwise (fun a b => b.file_hash ≤ a.file_hash) →
    (∀ y ∈ xs, y.file_len = x.file_len) →
    ∀ z ∈ xs.dropWhile (fun y => Fileinfo.eq y x), z.file_hash < x.file_hash := by
  induction xs with
  | nil => intro x _ _ z hz; simp at hz
  | cons y ys ih =>
    intro x hsort hlen z hz
    rw [List.pairwise_cons] at hsort
    by_cases hy : Fileinfo.eq y x = true
    · rw [@List.dropWhile_cons_of_pos _ (fun w => Fileinfo.eq w x) y ys hy] at hz
      refine ih x ?_ (fun w hw => hlen w (List.mem_cons_of_mem y hw)) z hz
      rw [List.pairwise_cons]
      exact ⟨fun b hb => hsort.1 b (List.mem_cons_of_mem y hb),
        List.Pairwise.sublist (List.sublist_cons_self y ys) hsort.2⟩
    · rw [@List.dropWhile_cons_of_neg _ (fun w => Fileinfo.eq w x) y ys hy] at hz
      have hyx : y.file_hash < x.file_hash := by
        have hle : y.file_hash ≤ x.file_hash := hsort.1 y (List.mem_cons_self y ys)
        have hne : y.file_hash ≠ x.file_hash := by
          intro hcontra
          apply hy
          rw [Fileinfo.eq_iff]
          exact ⟨hcontra, hlen y (List.mem_cons_self y ys)⟩
        omega
      rcases List.mem_cons.mp hz with rfl | hz'
      · exact hyx
      · have : z.file_hash ≤ y.file_hash :=
          (List.pairwise_cons.mp hsort.2).1 z hz'
        omega

/-- In a descending-sorted uniform-length list, filtering the tail by the
head's hash is the same as taking the head's run. -/
theorem sorted_filter_eq_takeWhile (xs : List Fileinfo) (x : Fileinfo)
    (hsort : (x :: xs).Pairwise (fun a b => b.file_hash ≤ a.file_hash))
    (hlen : ∀ y ∈ xs, y.file_len = x.file_len) :
    xs.filter (fun z => z.file_hash == x.file_hash) =
      xs.takeWhile (fun y => Fileinfo.eq y x) := by
  conv_lhs => rw [← List.takeWhile_append_dropWhile (fun y => Fileinfo.eq y x) xs]
  rw [List.filter_append]
  have h1 : (xs.takeWhile (fun y => Fileinfo.eq y x)).filter
      (fun z => z.file_hash == x.file_hash) = xs.takeWhile (fun y => Fileinfo.eq y x) := by
    rw [List.filter_eq_self]
    intro a ha
    have := List.mem_takeWhile_imp ha
    rw [Fileinfo.eq_iff] at this
    simp [this.1]
  have h2 : (xs.dropWhile (fun y => Fileinfo.eq y x)).filter
      (fun z => z.file_hash == x.file_hash) = [] := by
    rw [List.filter_eq_nil_iff]
    intro a ha
    have := sorted_dropWhile_hash_lt xs x hsort hlen a ha
    simp only [beq_iff_eq]
    omega
  rw [h1, h2, List.append_nil]

/-- Uniform length is preserved by the run decomposition. -/
theorem takeWhile_len (xs : List Fileinfo) (x : Fileinfo) (L : Nat)
    (hlen : ∀ y ∈ xs, y.file_len = L) :
    ∀ y ∈ xs.takeWhile (fun y => Fileinfo.eq y x), y.file_len = L :=
  fun y hy => hlen y ((List.takeWhile_sublist _).subset hy)

theorem dropWhile_len (xs : List Fileinfo) (x : Fileinfo) (L : Nat)
    (hlen : ∀ y ∈ xs, y.file_len = L) :
    ∀ y ∈ xs.dropWhile (fun y => Fileinfo.eq y x), y.file_len = L :=
  fun y hy => hlen y ((List.dropWhile_sublist _).subset hy)

/-! ### Characterization of the merging pass on a sorted uniform bucket -/

/-- On a descending-sorted bucket of records sharing one length, every
record surviving the merging pass carries exactly the concatenated paths
of all input records with its hash. -/
theorem dedupMerge_paths (L : Nat) : ∀ (n : Nat) (s : List Fileinfo), s.length ≤ n →
    s.Pairwise (fun a b => b.file_hash ≤ a.file_hash) →
    (∀ y ∈ s, y.file_len = L) →
    ∀ r ∈ dedupMerge s, r.file_paths =
      (s.filter (fun z => z.file_hash == r.file_hash)).flatMap (fun z => z.file_paths) := by
  intro n
  induction n with
  | zero =>
    intro s hn _ _ r hr
    rw [List.length_eq_zero.mp (Nat.le_zero.mp hn)] at hr
    simp [dedupMerge] at hr
  | succ n ihn =>
    intro s hn hsort hlen r hr
    match s with
    | [] => simp [dedupMerge] at hr
    | x :: xs =>
      have hlenx : ∀ y ∈ xs, y.file_len = x.file_len := by
        intro y hy
        rw [hlen y (List.mem_cons_of_mem x hy), hlen x (List.mem_cons_self x xs)]
      rw [show dedupMerge (x :: xs) = dedupMergeGo x xs from rfl,
        dedupMergeGo_split xs x] at hr
      rcases List.mem_cons.mp hr with rfl | hrtail
      · -- the head record: its run is the filtered class of x's hash
        have hfil : xs.filter (fun z => z.file_hash == x.file_hash) =
            xs.takeWhile (fun y => Fileinfo.eq y x) :=
          sorted_filter_eq_takeWhile xs x hsort hlenx
        show x.file_paths ++
            (xs.takeWhile (fun y => Fileinfo.eq y x)).flatMap (fun r => r.file_paths) =
          ((x :: xs).filter (fun z => z.file_hash == x.file_hash)).flatMap
            (fun z => z.file_paths)
        rw [List.filter_cons_of_pos (by simp), hfil]
        simp
      · -- a record of the remainder: the head's run contributes nothing
        have hdw : ∀ z ∈ xs.dropWhile (fun y => Fileinfo.eq y x),
            z.file_hash < x.file_hash :=
          sorted_dropWhile_hash_lt xs x hsort hlenx
        have hsub : (xs.dropWhile (fun y => Fileinfo.eq y x)).Sublist (x :: xs) :=
          List.Sublist.trans (List.dropWhile_sublist _) (List.sublist_cons_self x xs)
        have hlendw : ∀ y ∈ xs.dropWhile (fun y => Fileinfo.eq y x), y.file_len = L :=
          fun y hy => hlen y (hsub.subset hy)
        have hlength : (xs.dropWhile (fun y => Fileinfo.eq y x)).length ≤ n := by
          have h1 : (xs.dropWhile (fun y => Fileinfo.eq y x)).length ≤ xs.length :=
            (List.dropWhile_sublist _).length_le
          have h2 : xs.length + 1 ≤ n + 1 := by simpa using hn
          omega
        have hih := ihn (xs.dropWhile (fun y => Fileinfo.eq y x)) hlength
          (List.Pairwise.sublist hsub hsort) hlendw r hrtail
        -- r's hash occurs in the remainder and is < x.file_hash
        have hrhash : r.file_hash ∈
            (xs.dropWhile (fun y => Fileinfo.eq y x)).map Fileinfo.file_hash := by
          rcases dedupMerge_shape _ r hrtail with ⟨z, hz, P, hP⟩
          have : r.file_hash = z.file_hash := by rw [hP]
          rw [this]
          exact List.mem_map_of_mem Fileinfo.file_hash hz
        rcases List.mem_map.mp hrhash with ⟨z, hz, hzr⟩
        have hlt : r.file_hash < x.file_hash := by
          rw [← hzr]; exact hdw z hz
        rw [List.filter_cons_of_neg (by simp; omega)]
        conv_rhs => rw [← List.takeWhile_append_dropWhile (fun y => Fileinfo.eq y x) xs,
          List.filter_append]
        have htw : (xs.takeWhile (fun y => Fileinfo.eq y x)).filter
            (fun z => z.file_hash == r.file_hash) = [] := by
          rw [List.filter_eq_nil_iff]
          intro a ha
          have := List.mem_takeWhile_imp ha
          rw [Fileinfo.eq_iff] at this
          simp only [beq_iff_eq]
          omega
        rw [htw, List.nil_append]
        exact hih

/-- Every input hash of a sorted uniform bucket is represented among the
surviving records of the merging pass. -/
theorem dedupMerge_hash_onto (L : Nat) : ∀ (n : Nat) (s : List Fileinfo), s.length ≤ n →
    s.Pairwise (fun a b => b.file_hash ≤ a.file_hash) →
    (∀ y ∈ s, y.file_len = L) →
    ∀ x ∈ s, ∃ r ∈ dedupMerge s, r.file_hash = x.file_hash := by
  intro n
  induction n with
  | zero =>
    intro s hn _ _ x hx
    rw [List.length_eq_zero.mp (Nat.le_zero.mp hn)] at hx
    simp at hx
  | succ n ihn =>
    intro s hn hsort hlen x hx
    match s with
    | [] => simp at hx
    | y :: ys =>
      have hleny : ∀ w ∈ ys, w.file_len = y.file_len := by
        intro w hw
        rw [hlen w (List.mem_cons_of_mem y hw), hlen y (List.mem_cons_self y ys)]
      rw [show dedupMerge (y :: ys) = dedupMergeGo y ys from rfl, dedupMergeGo_split ys y]
      rcases List.mem_cons.mp hx with rfl | hxtail
      · exact ⟨_, List.mem_cons_self _ _, rfl⟩
      · rw [← List.takeWhile_append_dropWhile (fun w => Fileinfo.eq w y) ys] at hxtail
        rcases List.mem_append.mp hxtail with hxtw | hxdw
        · refine ⟨_, List.mem_cons_self _ _, ?_⟩
          have := List.mem_takeWhile_imp hxtw
          rw [Fileinfo.eq_iff] at this
          exact this.1.symm
        · have hsub : (ys.dropWhile (fun w => Fileinfo.eq w y)).Sublist (y :: ys) :=
            List.Sublist.trans (List.dropWhile_sublist _) (List.sublist_cons_self y ys)
          have hlength : (ys.dropWhile (fun w => Fileinfo.eq w y)).length ≤ n := by
            have h1 : (ys.dropWhile (fun w => Fileinfo.eq w y)).length ≤ ys.length :=
              (List.dropWhile_sublist _).length_le
            have h2 : ys.length + 1 ≤ n + 1 := by simpa using hn
            omega
          rcases ihn (ys.dropWhile (fun w => Fileinfo.eq w y)) hlength
            (List.Pairwise.sublist hsub hsort)
            (fun w hw => hlen w (hsub.subset hw)) x hxdw with ⟨r, hr, hrx⟩
          exact ⟨r, List.mem_cons_of_mem _ hr, hrx⟩

/-! ### Transport through the hashing and sorting stages -/

theorem mem_sorted_iff (fs : Nat → List Nat) (ph : List Nat → Nat)
    (files : List Fileinfo) (r : Fileinfo) :
    r ∈ sortStage (hashStageOne fs ph files) ↔
      ∃ f ∈ files, r = { f with file_hash := genHashPart fs ph (f.file_paths.headD 0) } := by
  rw [(sortStage_perm _).mem_iff]
  constructor
  · intro hr
    rcases List.mem_map.mp hr with ⟨f, hf, hfr⟩
    exact ⟨f, hf, hfr.symm⟩
  · intro ⟨f, hf, hfr⟩
    exact hfr ▸ List.mem_map_of_mem _ hf

theorem sorted_flag_false (fs : Nat → List Nat) (ph : List Nat → Nat)
    (files : List Fileinfo) (hflag : ∀ r ∈ files, r.second_hash = false) :
    ∀ r ∈ sortStage (hashStageOne fs ph files), r.second_hash = false := by
  intro r hr
  rcases (mem_sorted_iff fs ph files r).mp hr with ⟨f, hf, rfl⟩
  exact hflag f hf

theorem sorted_len_eq (fs : Nat → List Nat) (ph : List Nat → Nat)
    (files : List Fileinfo) (L : Nat) (hlen : ∀ r ∈ files, r.file_len = L) :
    ∀ r ∈ sortStage (hashStageOne fs ph files), r.file_len = L := by
  intro r hr
  rcases (mem_sorted_iff fs ph files r).mp hr with ⟨f, hf, rfl⟩
  exact hlen f hf

theorem getD_map_lt (g : Fileinfo → Fileinfo) (l : List Fileinfo) (i : Nat)
    (h : i < l.length) :
    (l.map g).getD i dflt = g (l.getD i dflt) := by
  rw [List.getD_eq_getElem?_getD, List.getD_eq_getElem?_getD, List.getElem?_map,
    List.getElem?_eq_getElem h]
  rfl

theorem getD_mem_of_lt (l : List Fileinfo) (i : Nat) (h : i < l.length) :
    l.getD i dflt ∈ l := by
  rw [List.getD_eq_getElem?_getD, List.getElem?_eq_getElem h]
  exact List.getElem_mem h

/-! ### The two sides of the 4096-byte threshold -/

theorem hashStages_le_threshold (fs : Nat → List Nat) (ph fh : List Nat → Nat)
    (L : Nat) (files : List Fileinfo) (hL : L ≤ 4096) :
    hashStages fs ph fh L files = sortStage (hashStageOne fs ph files) := by
  unfold hashStages
  rw [if_neg (by omega)]

theorem hashStages_gt_threshold_getD (fs : Nat → List Nat) (ph fh : List Nat → Nat)
    (L : Nat) (files : List Fileinfo) (hL : 4096 < L)
    (hflag : ∀ r ∈ files, r.second_hash = false) (i : Nat)
    (hi : i < (sortStage (hashStageOne fs ph files)).length) :
    (hashStages fs ph fh L files).getD i dflt =
      if adjColl (sortStage (hashStageOne fs ph files)) i then
        { (sortStage (hashStageOne fs ph files)).getD i dflt with
            file_hash := genHashFull fs fh
              (((sortStage (hashStageOne fs ph files)).getD i dflt).file_paths.headD 0),
            second_hash := true }
      else (sortStage (hashStageOne fs ph files)).getD i dflt := by
  unfold hashStages
  rw [if_pos hL]
  unfold fullHashStage
  rw [getD_map_lt _ _ i (by rw [markStage_length]; exact hi),
    markStage_getD]
  by_cases hc : adjColl (sortStage (hashStageOne fs ph files)) i = true
  · rw [if_pos hc, if_pos hc]
    rfl
  · rw [if_neg hc, if_neg hc]
    have : ((sortStage (hashStageOne fs ph files)).getD i dflt).second_hash = false :=
      sorted_flag_false fs ph files hflag _ (getD_mem_of_lt _ i hi)
    rw [this]
    rfl

/-! ### Path preservation and the output view -/

theorem markGo_paths (xs : List Fileinfo) : ∀ prev r, r ∈ markGo prev xs →
    r.file_paths = prev.file_paths ∨ ∃ z ∈ xs, r.file_paths = z.file_paths := by
  induction xs with
  | nil =>
    intro prev r hr
    simp only [markGo, List.mem_singleton] at hr
    exact Or.inl (by rw [hr])
  | cons x xs ih =>
    intro prev r hr
    by_cases hx : Fileinfo.eq x prev = true
    · simp only [markGo, hx, if_pos, List.mem_cons] at hr
      rcases hr with rfl | hr
      · exact Or.inl rfl
      · rcases ih (mark x) r hr with h | ⟨z, hz, hzp⟩
        · exact Or.inr ⟨x, List.mem_cons_self x xs, h⟩
        · exact Or.inr ⟨z, List.mem_cons_of_mem x hz, hzp⟩
    · simp only [markGo, hx, if_neg, Bool.not_eq_true, List.mem_cons] at hr
      rcases hr with rfl | hr
      · exact Or.inl rfl
      · rcases ih x r hr with h | ⟨z, hz, hzp⟩
        · exact Or.inr ⟨x, List.mem_cons_self x xs, h⟩
        · exact Or.inr ⟨z, List.mem_cons_of_mem x hz, hzp⟩

theorem markStage_paths (l : List Fileinfo) : ∀ r ∈ markStage l,
    ∃ z ∈ l, r.file_paths = z.file_paths := by
  cases l with
  | nil => intro r hr; simp [markStage] at hr
  | cons x xs =>
    intro r hr
    rcases markGo_paths xs x r hr with h | ⟨z, hz, hzp⟩
    · exact ⟨x, List.mem_cons_self x xs, h⟩
    · exact ⟨z, List.mem_cons_of_mem x hz, hzp⟩

theorem hashStages_paths_ne (fs : Nat → List Nat) (ph fh : List Nat → Nat)
    (L : Nat) (files : List Fileinfo) (hne : ∀ r ∈ files, r.file_paths ≠ []) :
    ∀ r ∈ hashStages fs ph fh L files, r.file_paths ≠ [] := by
  have hsorted : ∀ r ∈ sortStage (hashStageOne fs ph files), r.file_paths ≠ [] := by
    intro r hr
    rcases (mem_sorted_iff fs ph files r).mp hr with ⟨f, hf, rfl⟩
    exact hne f hf
  intro r hr
  unfold hashStages at hr
  by_cases hL : 4096 < L
  · rw [if_pos hL] at hr
    unfold fullHashStage at hr
    rcases List.mem_map.mp hr with ⟨m, hm, rfl⟩
    rcases markStage_paths _ m hm with ⟨z, hz, hzp⟩
    have hpaths : (if m.second_hash = true then
        { m with file_hash := genHashFull fs fh (m.file_paths.headD 0) }
        else m).file_paths = m.file_paths := by
      split <;> rfl
    rw [hpaths, hzp]
    exact hsorted z hz
  · rw [if_neg hL] at hr
    exact hsorted r hr

theorem dedupMerge_paths_ne (s : List Fileinfo) (h : ∀ x ∈ s, x.file_paths ≠ []) :
    ∀ r ∈ dedupMerge s, r.file_paths ≠ [] := by
  cases s with
  | nil => intro r hr; simp [dedupMerge] at hr
  | cons x xs =>
    exact dedupMergeGo_paths_ne xs x (h x (List.mem_cons_self x xs))
      (fun y hy => h y (List.mem_cons_of_mem x hy))

/-- One direction of the order-independence of the merged output view. -/
theorem dedupMerge_view_mem (L : Nat) (s₁ s₂ : List Fileinfo) (hs : s₁.Perm s₂)
    (hsort₁ : s₁.Pairwise (fun a b => b.file_hash ≤ a.file_hash))
    (hsort₂ : s₂.Pairwise (fun a b => b.file_hash ≤ a.file_hash))
    (hlen₁ : ∀ y ∈ s₁, y.file_len = L) :
    ∀ t, (∃ r ∈ dedupMerge s₁, recordView r = t) →
      ∃ r' ∈ dedupMerge s₂, recordView r' = t := by
  have hlen₂ : ∀ y ∈ s₂, y.file_len = L := fun y hy => hlen₁ y (hs.mem_iff.mpr hy)
  rintro t ⟨r, hr, hrt⟩
  obtain ⟨z, hz, P, hP⟩ := dedupMerge_shape s₁ r hr
  have hzhash : r.file_hash = z.file_hash := by rw [hP]
  have hzlen : r.file_len = z.file_len := by rw [hP]
  obtain ⟨r', hr', hr'h⟩ := dedupMerge_hash_onto L s₂.length s₂ le_rfl hsort₂ hlen₂ z
    (hs.subset hz)
  obtain ⟨z', hz', P', hP'⟩ := dedupMerge_shape s₂ r' hr'
  have hp1 := dedupMerge_paths L s₁.length s₁ le_rfl hsort₁ hlen₁ r hr
  have hp2 := dedupMerge_paths L s₂.length s₂ le_rfl hsort₂ hlen₂ r' hr'
  have hh : r'.file_hash = r.file_hash := by rw [hr'h, hzhash]
  have hl : r'.file_len = r.file_len := by
    have h1 : r'.file_len = z'.file_len := by rw [hP']
    rw [h1, hzlen, hlen₁ z hz, hlen₂ z' hz']
  have hpathset : r'.file_paths.toFinset = r.file_paths.toFinset := by
    rw [hp1, hp2, hh]
    apply Finset.ext
    intro a
    simp only [List.mem_toFinset, List.mem_flatMap, List.mem_filter]
    constructor
    · rintro ⟨w, ⟨hw, hwh⟩, ha⟩
      exact ⟨w, ⟨hs.mem_iff.mpr hw, hwh⟩, ha⟩
    · rintro ⟨w, ⟨hw, hwh⟩, ha⟩
      exact ⟨w, ⟨hs.mem_iff.mp hw, hwh⟩, ha⟩
  refine ⟨r', hr', ?_⟩
  rw [← hrt]
  unfold recordView
  rw [hh, hl, hpathset]

theorem dedupMerge_view (L : Nat) (s₁ s₂ : List Fileinfo) (hs : s₁.Perm s₂)
    (hsort₁ : s₁.Pairwise (fun a b => b.file_hash ≤ a.file_hash))
    (hsort₂ : s₂.Pairwise (fun a b => b.file_hash ≤ a.file_hash))
    (hlen₁ : ∀ y ∈ s₁, y.file_len = L) :
    outputView (dedupMerge s₁) = outputView (dedupMerge s₂) := by
  have hlen₂ : ∀ y ∈ s₂, y.file_len = L := fun y hy => hlen₁ y (hs.mem_iff.mpr hy)
  apply Finset.ext
  intro t
  simp only [outputView, List.mem_toFinset, List.mem_map]
  constructor
  · rintro ⟨r, hr, hrt⟩
    rcases dedupMerge_view_mem L s₁ s₂ hs hsort₁ hsort₂ hlen₁ t ⟨r, hr, hrt⟩
      with ⟨r', hr', hr't⟩
    exact ⟨r', hr', hr't⟩
  · rintro ⟨r, hr, hrt⟩
    rcases dedupMerge_view_mem L s₂ s₁ hs.symm hsort₂ hsort₁ hlen₂ t ⟨r, hr, hrt⟩
      with ⟨r', hr', hr't⟩
    exact ⟨r', hr', hr't⟩

/-! ### Concrete fixtures used by witnesses and counterexamples -/

/-- Witness filesystem: path `p` holds content `[p % 2]`, so paths 0 and 2
hold byte-identical content and path 1 differs. -/
def wFs : Nat → List Nat := fun p => [p % 2]

/-- Witness partial-hash function: constant, so every partial hash
collides. -/
def wPh : List Nat → Nat := fun _ => 0

/-- Witness full-hash function: the first byte, so it separates the two
contents of `wFs`. -/
def wFh : List Nat → Nat := fun l => l.headD 0

/-- Two single-path records of length 5000 (above the threshold). -/
def wFiles2 : List Fileinfo := [Fileinfo.new 0 5000 0, Fileinfo.new 0 5000 1]

/-- Three single-path records of length 5000: paths 0 and 2 are true
duplicates under `wFs`, path 1 is a partial-hash false positive sitting
between them. -/
def wFiles3 : List Fileinfo :=
  [Fileinfo.new 0 5000 0, Fileinfo.new 0 5000 1, Fileinfo.new 0 5000 2]

/-- The same three records listed in a different order: the two true
duplicates are adjacent. -/
def wFiles3' : List Fileinfo :=
  [Fileinfo.new 0 5000 0, Fileinfo.new 0 5000 2, Fileinfo.new 0 5000 1]

/-- Two single-path records of length 10 (below the threshold) whose paths
0 and 2 hold identical content under `wFs`. -/
def wSmall : List Fileinfo := [Fileinfo.new 0 10 0, Fileinfo.new 0 10 2]

/-- The records of `wSmall` in the opposite order. -/
def wSmallRev : List Fileinfo := [Fileinfo.new 0 10 2, Fileinfo.new 0 10 0]

/-! ### The claims -/

/-- Claim C5: two records compare equal exactly when their `file_hash` and
`file_len` both agree; the path list and the `second_hash` flag play no
role, and the comparison involves no file content at all (its inputs are
just the two records). -/
theorem claim_C5 (a b : Fileinfo) :
    (Fileinfo.eq a b = true ↔ a.file_hash = b.file_hash ∧ a.file_len = b.file_len) ∧
    (∀ P Q s t, Fileinfo.eq { a with file_paths := P, second_hash := s }
        { b with file_paths := Q, second_hash := t } = Fileinfo.eq a b) :=
  ⟨Fileinfo.eq_iff a b, fun _ _ _ _ => rfl⟩

/-- Claim C10: the `Hash` implementation feeds only `file_hash` to the
hasher, so records that compare equal produce identical hasher input; the
hasher input depends on nothing but `file_hash`. -/
theorem claim_C10 (a b : Fileinfo) (h : Fileinfo.eq a b = true) :
    Fileinfo.hashInput a = Fileinfo.hashInput b ∧
    ∀ c d : Fileinfo, c.file_hash = d.file_hash →
      Fileinfo.hashInput c = Fileinfo.hashInput d := by
  constructor
  · have := (Fileinfo.eq_iff a b).mp h
    simp [Fileinfo.hashInput, this.1]
  · intro c d hcd
    simp [Fileinfo.hashInput, hcd]

theorem claim_C10_witness :
    Fileinfo.eq (Fileinfo.new 4 9 0) (Fileinfo.new 4 9 1) = true ∧
    Fileinfo.hashInput (Fileinfo.new 4 9 0) = Fileinfo.hashInput (Fileinfo.new 4 9 1) :=
  ⟨by decide, (claim_C10 (Fileinfo.new 4 9 0) (Fileinfo.new 4 9 1) (by decide)).1⟩

/-- Claim C6: a zero-length bucket, and a bucket holding exactly one
record, are returned unchanged (`some files`, every field as on entry);
since the answer equals the input for every hash function, no hash is
computed. -/
theorem claim_C6 (fs : Nat → List Nat) (ph fh : List Nat → Nat) (L : Nat)
    (files : List Fileinfo) :
    (L = 0 → differentiate_and_consolidate fs ph fh L files = some files) ∧
    (files.length = 1 → differentiate_and_consolidate fs ph fh L files = some files) := by
  constructor
  · intro h
    unfold differentiate_and_consolidate
    rw [if_pos (Or.inl h)]
  · intro h
    unfold differentiate_and_consolidate
    by_cases h0 : L = 0 ∨ files.length = 0
    · rw [if_pos h0]
    · rw [if_neg h0, if_pos h]

theorem claim_C6_witness :
    differentiate_and_consolidate wFs wPh wFh 0 wFiles2 = some wFiles2 ∧
    differentiate_and_consolidate wFs wPh wFh 7 [Fileinfo.new 3 7 5] =
      some [Fileinfo.new 3 7 5] :=
  ⟨(claim_C6 wFs wPh wFh 0 wFiles2).1 rfl,
   (claim_C6 wFs wPh wFh 7 [Fileinfo.new 3 7 5]).2 rfl⟩

/-- Claim C7: the `panic!` arm (modelled by `none`) is unreachable: for
every input the resolver returns `some` result. -/
theorem claim_C7 (fs : Nat → List Nat) (ph fh : List Nat → Nat) (L : Nat)
    (files : List Fileinfo) :
    (differentiate_and_consolidate fs ph fh L files).isSome = true := by
  unfold differentiate_and_consolidate
  split_ifs with h1 h2 h3
  · rfl
  · rfl
  · rfl
  · exfalso; omega

/-- Claim C2: for a bucket of shared length at most 4096 (including
exactly 4096) the hashing stages stop at the sorted partial hashes — the
result does not depend on the full-hash function at all; for a bucket of
shared length above 4096, a record gets the full hash of its file (and the
`second_hash` flag) exactly when it has an adjacent record in the
descending partial-hash order comparing equal (equal partial hash and
equal length), and every record without such a neighbour keeps its partial
hash and fields unchanged; these hashing stages are exactly what the
resolver runs (before the final merge) on every bucket of two or more
records. -/
theorem claim_C2 (fs : Nat → List Nat) (ph fh : List Nat → Nat) (L : Nat)
    (files : List Fileinfo) (hflag : ∀ r ∈ files, r.second_hash = false) :
    (L ≤ 4096 → ∀ fh' : List Nat → Nat,
      hashStages fs ph fh L files = sortStage (hashStageOne fs ph files) ∧
      hashStages fs ph fh L files = hashStages fs ph fh' L files) ∧
    (4096 < L → ∀ i, i < (sortStage (hashStageOne fs ph files)).length →
      (hashStages fs ph fh L files).getD i dflt =
        if adjColl (sortStage (hashStageOne fs ph files)) i then
          { (sortStage (hashStageOne fs ph files)).getD i dflt with
              file_hash := genHashFull fs fh
                (((sortStage (hashStageOne fs ph files)).getD i dflt).file_paths.headD 0),
              second_hash := true }
        else (sortStage (hashStageOne fs ph files)).getD i dflt) ∧
    (L ≠ 0 → 1 < files.length →
      differentiate_and_consolidate fs ph fh L files =
        some (dedupMerge (hashStages fs ph fh L files))) := by
  refine ⟨?_, ?_, ?_⟩
  · intro hle fh'
    exact ⟨hashStages_le_threshold fs ph fh L files hle,
      by rw [hashStages_le_threshold fs ph fh L files hle,
        hashStages_le_threshold fs ph fh' L files hle]⟩
  · intro hgt i hi
    exact hashStages_gt_threshold_getD fs ph fh L files hgt hflag i hi
  · intro hz hn
    unfold differentiate_and_consolidate
    rw [if_neg (by omega), if_neg (by omega), if_pos hn]

theorem claim_C2_witness :
    (∀ r ∈ wFiles2, r.second_hash = false) ∧
    (hashStages wFs wPh wFh 5000 wFiles2).getD 0 dflt =
      (if adjColl (sortStage (hashStageOne wFs wPh wFiles2)) 0 then
        { (sortStage (hashStageOne wFs wPh wFiles2)).getD 0 dflt with
            file_hash := genHashFull wFs wFh
              (((sortStage (hashStageOne wFs wPh wFiles2)).getD 0 dflt).file_paths.headD 0),
            second_hash := true }
      else (sortStage (hashStageOne wFs wPh wFiles2)).getD 0 dflt) :=
  ⟨by decide,
   (claim_C2 wFs wPh wFh 5000 wFiles2 (by decide)).2.1 (by omega) 0 (by decide)⟩

/-- Claim C4: the partition puts a record among the shared records exactly
when it has more than one path, among the unique records exactly when it
has exactly one path (given that resolved records have non-empty path
lists), the two parts together are a permutation of the complete list, and
no record lies in both parts. -/
theorem claim_C4 (complete : List Fileinfo) (hne : ∀ r ∈ complete, r.file_paths ≠ []) :
    (∀ r, r ∈ (partitionFiles complete).1 ↔ r ∈ complete ∧ 1 < r.file_paths.length) ∧
    (∀ r, r ∈ (partitionFiles complete).2 ↔ r ∈ complete ∧ r.file_paths.length = 1) ∧
    ((partitionFiles complete).1 ++ (partitionFiles complete).2).Perm complete ∧
    (∀ r, ¬(r ∈ (partitionFiles complete).1 ∧ r ∈ (partitionFiles complete).2)) := by
  unfold partitionFiles
  rw [List.partition_eq_filter_filter]
  refine ⟨?_, ?_, ?_, ?_⟩
  · intro r
    simp [List.mem_filter]
  · intro r
    simp only [List.mem_filter, Function.comp, Bool.not_eq_true', decide_eq_false_iff_not]
    constructor
    · intro ⟨hmem, hp⟩
      refine ⟨hmem, ?_⟩
      have h0 : r.file_paths.length ≠ 0 := by
        simpa [List.length_eq_zero] using hne r hmem
      omega
    · intro ⟨hmem, h1⟩
      exact ⟨hmem, by omega⟩
  · simpa using List.filter_append_perm (fun x => decide (1 < x.file_paths.length)) complete
  · intro r ⟨h1, h2⟩
    rw [List.mem_filter] at h1 h2
    have ha := h1.2
    have hb := h2.2
    simp only [Function.comp, Bool.not_eq_true', decide_eq_false_iff_not] at hb
    simp only [decide_eq_true_eq] at ha
    exact hb ha

/-- Counterexample to claim C1 as stated: three records of shared length
5000 > 4096, where paths 0 and 2 hold byte-identical content and path 1
shares their partial hash but has different content.  The sorted order
puts the false positive between the duplicates; after the full-hash
upgrade records 0 and 2 are content-equal (hash 0, length 5000) but are
NOT adjacent, and the final adjacent-merge pass leaves them split in two
distinct records. -/
theorem claim_C1_counterexample :
    wFs 0 = wFs 2 ∧
    differentiate_and_consolidate wFs wPh wFh 5000 wFiles3 = some
      [{ file_hash := 0, file_len := 5000, file_paths := [0], second_hash := true },
       { file_hash := 1, file_len := 5000, file_paths := [1], second_hash := true },
       { file_hash := 0, file_len := 5000, file_paths := [2], second_hash := true }] ∧
    ¬ ∃ r ∈ ([{ file_hash := 0, file_len := 5000, file_paths := [0], second_hash := true },
       { file_hash := 1, file_len := 5000, file_paths := [1], second_hash := true },
       { file_hash := 0, file_len := 5000, file_paths := [2], second_hash := true }] :
        List Fileinfo), 0 ∈ r.file_paths ∧ 2 ∈ r.file_paths := by
  decide

/-- Claim C1 (amended): for a bucket of one shared nonzero length of at
most 4096 bytes, any two paths holding byte-identical content end up in
one and the same output record of the resolver (no false split).  Above
4096 bytes this fails (see the counterexample): a false-positive
partial-hash collider between two true duplicates in the sorted order
blocks the adjacent merge. -/
theorem claim_C1 (fs : Nat → List Nat) (ph fh : List Nat → Nat) (L : Nat)
    (files : List Fileinfo) (p q : Nat) (rp rq : Fileinfo)
    (hL0 : 0 < L) (hL : L ≤ 4096)
    (hlen : ∀ r ∈ files, r.file_len = L)
    (hone : ∀ r ∈ files, ∃ a, r.file_paths = [a])
    (hrp : rp ∈ files) (hrq : rq ∈ files)
    (hp : p ∈ rp.file_paths) (hq : q ∈ rq.file_paths)
    (hpq : fs p = fs q) :
    ∃ out, differentiate_and_consolidate fs ph fh L files = some out ∧
      ∃ r ∈ out, p ∈ r.file_paths ∧ q ∈ r.file_paths := by
  obtain ⟨a, ha⟩ := hone rp hrp
  obtain ⟨b, hb⟩ := hone rq hrq
  rw [ha, List.mem_singleton] at hp
  rw [hb, List.mem_singleton] at hq
  have hpa : rp.file_paths = [p] := by rw [ha, hp]
  have hqb : rq.file_paths = [q] := by rw [hb, hq]
  have hpos : 0 < files.length := List.length_pos.mpr (List.ne_nil_of_mem hrp)
  by_cases h1 : files.length = 1
  · have hdac : differentiate_and_consolidate fs ph fh L files = some files := by
      unfold differentiate_and_consolidate
      rw [if_neg (by omega), if_pos h1]
    obtain ⟨x, hxf⟩ := List.length_eq_one.mp h1
    have hrp' := hrp
    have hrq' := hrq
    rw [hxf, List.mem_singleton] at hrp' hrq'
    have hrr : rq = rp := by rw [hrq', hrp']
    refine ⟨files, hdac, rp, hrp, ?_, ?_⟩
    · rw [hpa]; simp
    · have hq' : rp.file_paths = [q] := by rw [← hrr, hqb]
      rw [hq']; simp
  · have h2 : 1 < files.length := by omega
    refine ⟨dedupMerge (hashStages fs ph fh L files), ?_, ?_⟩
    · unfold differentiate_and_consolidate
      rw [if_neg (by omega), if_neg h1, if_pos h2]
    · rw [hashStages_le_threshold fs ph fh L files hL]
      have hsort := sortStage_sorted (hashStageOne fs ph files)
      have hslen : ∀ y ∈ sortStage (hashStageOne fs ph files), y.file_len = L :=
        sorted_len_eq fs ph files L hlen
      have hxp : { rp with file_hash := genHashPart fs ph (rp.file_paths.headD 0) }
          ∈ sortStage (hashStageOne fs ph files) :=
        (mem_sorted_iff fs ph files _).mpr ⟨rp, hrp, rfl⟩
      have hxq : { rq with file_hash := genHashPart fs ph (rq.file_paths.headD 0) }
          ∈ sortStage (hashStageOne fs ph files) :=
        (mem_sorted_iff fs ph files _).mpr ⟨rq, hrq, rfl⟩
      obtain ⟨r, hr, hrh⟩ := dedupMerge_hash_onto L _ _ le_rfl hsort hslen _ hxp
      have hpaths := dedupMerge_paths L _ _ le_rfl hsort hslen r hr
      have hqp : genHashPart fs ph (rq.file_paths.headD 0) =
          genHashPart fs ph (rp.file_paths.headD 0) := by
        rw [hpa, hqb]
        show genHashPart fs ph q = genHashPart fs ph p
        unfold genHashPart
        rw [hpq]
      refine ⟨r, hr, ?_, ?_⟩
      · rw [hpaths, List.mem_flatMap]
        refine ⟨{ rp with file_hash := genHashPart fs ph (rp.file_paths.headD 0) },
          List.mem_filter.mpr ⟨hxp, ?_⟩, ?_⟩
        · rw [hrh]; simp
        · show p ∈ rp.file_paths
          rw [hpa]; simp
      · rw [hpaths, List.mem_flatMap]
        refine ⟨{ rq with file_hash := genHashPart fs ph (rq.file_paths.headD 0) },
          List.mem_filter.mpr ⟨hxq, ?_⟩, ?_⟩
        · rw [hrh]
          show (genHashPart fs ph (rq.file_paths.headD 0) ==
            genHashPart fs ph (rp.file_paths.headD 0)) = true
          rw [hqp]
          simp
        · show q ∈ rq.file_paths
          rw [hqb]; simp

theorem claim_C1_witness :
    ((0 : Nat) < 10 ∧ (10 : Nat) ≤ 4096 ∧ wFs 0 = wFs 2) ∧
    ∃ out, differentiate_and_consolidate wFs wPh wFh 10 wSmall = some out ∧
      ∃ r ∈ out, 0 ∈ r.file_paths ∧ 2 ∈ r.file_paths :=
  ⟨⟨by omega, by omega, by decide⟩,
   claim_C1 wFs wPh wFh 10 wSmall 0 2 (Fileinfo.new 0 10 0) (Fileinfo.new 0 10 2)
     (by omega) (by omega) (by decide)
     (by intro r hr; fin_cases hr <;> exact ⟨_, rfl⟩)
     (by decide) (by decide) (by decide) (by decide) (by decide)⟩

/-- Counterexample to claim C3 as stated: the same three records as in the
C1 counterexample, listed in two different orders (a permutation of one
bucket), give outputs that differ even as sets of (hash, length, path-set)
triples — one order yields three records, the other merges the duplicates
into two. -/
theorem claim_C3_counterexample :
    wFiles3.Perm wFiles3' ∧ (∀ r ∈ wFiles3, r.file_len = 5000) ∧
    ¬ ((differentiate_and_consolidate wFs wPh wFh 5000 wFiles3).map outputView =
       (differentiate_and_consolidate wFs wPh wFh 5000 wFiles3').map outputView) := by
  decide

/-- Claim C3 (amended): for a bucket of one shared length of at most 4096
bytes, the resolver output viewed as a set of (hash, length, path-set)
triples does not depend on the order in which the bucket's records are
listed.  Above 4096 bytes the output does depend on the order (see the
counterexample). -/
theorem claim_C3 (fs : Nat → List Nat) (ph fh : List Nat → Nat) (L : Nat)
    (files₁ files₂ : List Fileinfo) (hperm : files₁.Perm files₂) (hL : L ≤ 4096)
    (hlen : ∀ r ∈ files₁, r.file_len = L) :
    ∃ out₁ out₂,
      differentiate_and_consolidate fs ph fh L files₁ = some out₁ ∧
      differentiate_and_consolidate fs ph fh L files₂ = some out₂ ∧
      outputView out₁ = outputView out₂ := by
  by_cases hL0 : L = 0
  · refine ⟨files₁, files₂, ?_, ?_, ?_⟩
    · unfold differentiate_and_consolidate; rw [if_pos (Or.inl hL0)]
    · unfold differentiate_and_consolidate; rw [if_pos (Or.inl hL0)]
    · exact List.toFinset_eq_of_perm _ _ (hperm.map recordView)
  · by_cases hn : files₁.length ≤ 1
    · have hn2 : files₂.length ≤ 1 := by rw [← hperm.length_eq]; exact hn
      have small : ∀ g : List Fileinfo, g.length ≤ 1 →
          differentiate_and_consolidate fs ph fh L g = some g := by
        intro g hg
        unfold differentiate_and_consolidate
        by_cases hz : L = 0 ∨ g.length = 0
        · rw [if_pos hz]
        · rw [if_neg hz, if_pos (by omega)]
      exact ⟨files₁, files₂, small files₁ hn, small files₂ hn2,
        List.toFinset_eq_of_perm _ _ (hperm.map recordView)⟩
    · have h21 : 1 < files₁.length := by omega
      have h22 : 1 < files₂.length := by rw [← hperm.length_eq]; omega
      refine ⟨dedupMerge (hashStages fs ph fh L files₁),
        dedupMerge (hashStages fs ph fh L files₂), ?_, ?_, ?_⟩
      · unfold differentiate_and_consolidate
        rw [if_neg (by omega), if_neg (by omega), if_pos h21]
      · unfold differentiate_and_consolidate
        rw [if_neg (by omega), if_neg (by omega), if_pos h22]
      · rw [hashStages_le_threshold fs ph fh L files₁ hL,
          hashStages_le_threshold fs ph fh L files₂ hL]
        apply dedupMerge_view L
        · exact (sortStage_perm _).trans ((hperm.map _).trans (sortStage_perm _).symm)
        · exact sortStage_sorted _
        · exact sortStage_sorted _
        · exact sorted_len_eq fs ph files₁ L hlen

theorem claim_C3_witness :
    wSmall.Perm wSmallRev ∧
    ∃ out₁ out₂,
      differentiate_and_consolidate wFs wPh wFh 10 wSmall = some out₁ ∧
      differentiate_and_consolidate wFs wPh wFh 10 wSmallRev = some out₂ ∧
      outputView out₁ = outputView out₂ :=
  ⟨by decide,
   claim_C3 wFs wPh wFh 10 wSmall wSmallRev (by decide) (by omega) (by decide)⟩

/-- Counterexample to claim C8 as stated: a root that does not exist is
skipped silently — `traverse_and_spawn` emits no record AND no
`Skipping ...` diagnostic (the diagnostic list is empty), contradicting
the claimed diagnostic line; the `Skipping` print happens only in the
`read_dir` error branch. -/
theorem claim_C8_counterexample :
    traverse_and_spawn none = ([], []) := rfl

/-- Claim C8 (amended): a nonexistent root contributes no record and no
diagnostic, the run continues over the remaining roots unaffected, and the
`Skipping <path>. <error kind>.` diagnostic is emitted for a directory
whose listing fails (not for a missing root). -/
theorem claim_C8 (roots : List (Option FsNode)) (p : Nat) (es : List FsNode) :
    walkRoots (none :: roots) = walkRoots roots ∧
    traverse_and_spawn none = ([], []) ∧
    (travNode (FsNode.dir p false es)).1 = [] ∧
    (travNode (FsNode.dir p false es)).2 = [p] := by
  refine ⟨?_, rfl, rfl, rfl⟩
  simp [walkRoots, traverse_and_spawn]

/-- Claim C9: a record is created with exactly one path, and every record
in the resolver's output has a non-empty path list, provided every input
record has one (merging only appends the absorbed record's paths into the
survivor). -/
theorem claim_C9 (fs : Nat → List Nat) (ph fh : List Nat → Nat) (L : Nat)
    (files out : List Fileinfo) (hash length path : Nat)
    (hne : ∀ r ∈ files, r.file_paths ≠ [])
    (hout : differentiate_and_consolidate fs ph fh L files = some out) :
    (Fileinfo.new hash length path).file_paths = [path] ∧
    ∀ r ∈ out, r.file_paths ≠ [] := by
  refine ⟨rfl, ?_⟩
  unfold differentiate_and_consolidate at hout
  split_ifs at hout with h1 h2 h3
  · cases hout; exact hne
  · cases hout; exact hne
  · cases hout
    exact dedupMerge_paths_ne _ (hashStages_paths_ne fs ph fh L files hne)

theorem claim_C9_witness :
    (∀ r ∈ wFiles2, r.file_paths ≠ []) ∧
    (Fileinfo.new 1 2 3).file_paths = [3] ∧
    ∀ r ∈ ([{ file_hash := 0, file_len := 5000, file_paths := [0], second_hash := true },
           { file_hash := 1, file_len := 5000, file_paths := [1], second_hash := true }] :
        List Fileinfo),
      r.file_paths ≠ [] :=
  ⟨by decide,
   claim_C9 wFs wPh wFh 5000 wFiles2
     [{ file_hash := 0, file_len := 5000, file_paths := [0], second_hash := true },
      { file_hash := 1, file_len := 5000, file_paths := [1], second_hash := true }]
     1 2 3 (by decide) (by decide)⟩

theorem claim_C4_witness :
    (∀ r ∈ [Fileinfo.new 1 2 5, { Fileinfo.new 1 2 5 with file_paths := [5, 6] }],
      r.file_paths ≠ []) ∧
    ((partitionFiles [Fileinfo.new 1 2 5,
        { Fileinfo.new 1 2 5 with file_paths := [5, 6] }]).1 ++
      (partitionFiles [Fileinfo.new 1 2 5,
        { Fileinfo.new 1 2 5 with file_paths := [5, 6] }]).2).Perm
      [Fileinfo.new 1 2 5, { Fileinfo.new 1 2 5 with file_paths := [5, 6] }] :=
  ⟨by decide,
   (claim_C4 [Fileinfo.new 1 2 5, { Fileinfo.new 1 2 5 with file_paths := [5, 6] }]
     (by decide)).2.2.1⟩

end Ddh
